import Mathlib

/-!
Shallow embedding of the switching state-space classifier of
`replay_trajectory_classification` (source files `classifier.py` and
`observation_model.py`).

Conventions of the embedding:
* machine floats become exact rationals (`ℚ`); `x / 0 = 0` in `ℚ`, which is
  exactly the guard the backward smoother applies to ratios whose predictive
  mass is zero;
* `NaN` entries of the likelihood pipeline become `Option ℚ` with `none`
  standing for `NaN`;
* numpy boolean-mask indexing `arr[:, is_track_interior]` is embedded as
  restricting every sum (contraction and normalization) to the filtered
  index set of interior bins;
* functions of `replay_trajectory_classification.core`
  (`_causal_classify`, `_acausal_classify`, `scaled_likelihood`, `mask`,
  `check_converged`) are imported by `classifier.py` but their module is not
  part of the two source files; they are modelled from the specification and
  marked `Modelled from the spec:` below.
-/

/-- Spatial environment: its name and the flattened (Fortran-order) interior
flags of its position bins (`is_track_interior_.ravel(order="F")` in
`classifier.py`).  The total number of position bins is the length of the
flag list. -/
structure Environment where
  environment_name : String
  is_track_interior : List Bool
deriving Repr, DecidableEq

/-- Number of position bins of an environment
(`place_bin_centers_.shape[0]`, which equals the length of the flattened
interior-flag array). -/
def Environment.n_bins (e : Environment) : ℕ :=
  e.is_track_interior.length

/-- `fit_environments` (classifier.py, lines 138-140): the padded joint bin
width `max_pos_bins_` is the maximum bin count over all fitted
environments. -/
def max_pos_bins_calc (envs : List Environment) : ℕ :=
  (envs.map Environment.n_bins).foldr max 0

/-- The interior position bins of a width-`B` bin axis under the interior
mask `intr`: the index set that numpy boolean-mask indexing by
`is_track_interior` selects. -/
def interiorBins (B : ℕ) (intr : ℕ → Bool) : Finset ℕ :=
  (Finset.range B).filter (fun b => intr b = true)

/-- Sum of an `(n_states, n_bins)` slice over the joint state restricted to
interior bins: the per-step normalizing constant of the recursions. -/
def sliceSum (S B : ℕ) (intr : ℕ → Bool) (u : ℕ → ℕ → ℚ) : ℚ :=
  ∑ s ∈ Finset.range S, ∑ b ∈ interiorBins B intr, u s b

/-- Normalize an `(n_states, n_bins)` slice over the interior joint state.
Entries at non-interior bins are not part of the contracted state space and
read 0. -/
def normalizeSlice (S B : ℕ) (intr : ℕ → Bool) (u : ℕ → ℕ → ℚ) :
    ℕ → ℕ → ℚ :=
  fun s b =>
    if b ∈ interiorBins B intr then u s b / sliceSum S B intr u else 0

/-- Modelled from the spec: the unnormalized slice of the forward (causal)
filtering recursion of the FilterSmoother engine (`_causal_classify` in
`replay_trajectory_classification.core`, whose module is not among the two
source files; only its caller `_get_results` is).  At `t = 0` the slice is
`initial_distribution * likelihood[0]`; afterwards it is the tensor
contraction of the previous normalized posterior with the joint transition
`joint[i, j, b, b2] = discrete[i, j] * continuous[i, j, b, b2]` followed by
multiplication with `likelihood[t]`.  Sums range over interior bins only. -/
def causal_unnorm (S B : ℕ) (intr : ℕ → Bool) (ic : ℕ → ℕ → ℚ)
    (ctr : ℕ → ℕ → ℕ → ℕ → ℚ) (dtr : ℕ → ℕ → ℚ)
    (like : ℕ → ℕ → ℕ → ℚ) : ℕ → ℕ → ℕ → ℚ
  | 0 => fun s b => ic s b * like 0 s b
  | t + 1 => fun s2 b2 =>
      (∑ s ∈ Finset.range S, ∑ b ∈ interiorBins B intr,
        normalizeSlice S B intr (causal_unnorm S B intr ic ctr dtr like t) s b *
          (dtr s s2 * ctr s s2 b b2)) * like (t + 1) s2 b2

/-- Modelled from the spec: the causal (filtered) posterior — each time
step's unnormalized slice divided by that step's normalizer, which sums over
the interior joint state only. -/
def causal_post (S B : ℕ) (intr : ℕ → Bool) (ic : ℕ → ℕ → ℚ)
    (ctr : ℕ → ℕ → ℕ → ℕ → ℚ) (dtr : ℕ → ℕ → ℚ)
    (like : ℕ → ℕ → ℕ → ℚ) : ℕ → ℕ → ℕ → ℚ :=
  fun t => normalizeSlice S B intr (causal_unnorm S B intr ic ctr dtr like t)

/-- The per-step normalizing constant of the causal recursion (whose
logarithm the engine accumulates into the data log-likelihood). -/
def causal_step_norm (S B : ℕ) (intr : ℕ → Bool) (ic : ℕ → ℕ → ℚ)
    (ctr : ℕ → ℕ → ℕ → ℕ → ℚ) (dtr : ℕ → ℕ → ℚ)
    (like : ℕ → ℕ → ℕ → ℚ) (t : ℕ) : ℚ :=
  sliceSum S B intr (causal_unnorm S B intr ic ctr dtr like t)

/-- Modelled from the spec: the backward (acausal) smoothing recursion
(`_acausal_classify` in `replay_trajectory_classification.core`, not among
the two source files), indexed from the end: `acausal_rev … 0` is the
smoothed slice at time `T - 1` (equal to the causal posterior there) and
`acausal_rev … (k+1)` the slice at time `T - 1 - (k+1)`, obtained by forming
the ratio of the next smoothed slice to the predictive distribution
(`x / 0 = 0` in `ℚ` realizes the zero-predictive-mass guard),
back-propagating it through the transition tensor, multiplying by the causal
posterior and renormalizing over the interior joint state. -/
def acausal_rev (S B T : ℕ) (intr : ℕ → Bool) (ic : ℕ → ℕ → ℚ)
    (ctr : ℕ → ℕ → ℕ → ℕ → ℚ) (dtr : ℕ → ℕ → ℚ)
    (like : ℕ → ℕ → ℕ → ℚ) : ℕ → ℕ → ℕ → ℚ
  | 0 => causal_post S B intr ic ctr dtr like (T - 1)
  | k + 1 =>
      let t := T - 1 - (k + 1)
      let cp := causal_post S B intr ic ctr dtr like t
      let nxt := acausal_rev S B T intr ic ctr dtr like k
      let pred := fun j b2 =>
        ∑ i ∈ Finset.range S, ∑ c ∈ interiorBins B intr,
          cp i c * (dtr i j * ctr i j c b2)
      normalizeSlice S B intr (fun i c =>
        cp i c * ∑ j ∈ Finset.range S, ∑ b2 ∈ interiorBins B intr,
          dtr i j * ctr i j c b2 * (nxt j b2 / pred j b2))

/-- Modelled from the spec: the acausal (smoothed) posterior at time `t`. -/
def acausal_post (S B T : ℕ) (intr : ℕ → Bool) (ic : ℕ → ℕ → ℚ)
    (ctr : ℕ → ℕ → ℕ → ℕ → ℚ) (dtr : ℕ → ℕ → ℚ)
    (like : ℕ → ℕ → ℕ → ℚ) (t : ℕ) : ℕ → ℕ → ℚ :=
  acausal_rev S B T intr ic ctr dtr like (T - 1 - t)

/-- Modelled from the spec: `mask` from
`replay_trajectory_classification.core` (not among the two source files), as
applied by `_convert_results_to_xarray` to every returned array in
single-environment mode: posterior mass at non-interior bins is exactly 0 in
the returned result. -/
def mask_arr (intr : ℕ → Bool) (v : ℕ → ℕ → ℚ) : ℕ → ℕ → ℚ :=
  fun s b => if intr b then v s b else 0

/-- First fitted environment, `self.environments[0]` (classifier.py uses it
for the single-environment branch of `_get_results`). -/
def env0 (envs : List Environment) : Environment :=
  envs.headD ⟨"", []⟩

/-- Interior mask of the single-environment branch:
`self.environments[0].is_track_interior_.ravel(order="F")`
(classifier.py, line 569). -/
def single_intr (envs : List Environment) : ℕ → Bool :=
  fun b => (env0 envs).is_track_interior.getD b false

/-- `_get_results` (classifier.py, lines 562-624), causal posterior as
returned to the caller.  With exactly one environment the recursion is run
on the arrays restricted to the interior bins and the result is masked; with
several environments the full padded arrays of width `max_pos_bins_` are
passed through unrestricted. -/
def get_results_causal (envs : List Environment) (S : ℕ) (ic : ℕ → ℕ → ℚ)
    (ctr : ℕ → ℕ → ℕ → ℕ → ℚ) (dtr : ℕ → ℕ → ℚ)
    (like : ℕ → ℕ → ℕ → ℚ) : ℕ → ℕ → ℕ → ℚ :=
  if envs.length = 1 then
    fun t => mask_arr (single_intr envs)
      (causal_post S (env0 envs).n_bins (single_intr envs) ic ctr dtr like t)
  else
    causal_post S (max_pos_bins_calc envs) (fun _ => true) ic ctr dtr like

/-- `_get_results` (classifier.py, lines 589-620), acausal posterior as
returned to the caller, same branch structure as the causal one. -/
def get_results_acausal (envs : List Environment) (S T : ℕ)
    (ic : ℕ → ℕ → ℚ) (ctr : ℕ → ℕ → ℕ → ℕ → ℚ) (dtr : ℕ → ℕ → ℚ)
    (like : ℕ → ℕ → ℕ → ℚ) : ℕ → ℕ → ℕ → ℚ :=
  if envs.length = 1 then
    fun t => mask_arr (single_intr envs)
      (acausal_post S (env0 envs).n_bins T (single_intr envs) ic ctr dtr like t)
  else
    fun t => acausal_post S (max_pos_bins_calc envs) T (fun _ => true)
      ic ctr dtr like t

def envsW : List Environment :=
  [⟨"env", [true, true, false, true, true]⟩]

def envs2W : List Environment :=
  [⟨"a", [true]⟩, ⟨"b", [true, false]⟩]

/-- Error kinds of the engine (spec section 7); only the shape check is
relevant to the engine entry. -/
inductive EngineError where
  | ShapeMismatch
deriving Repr, DecidableEq

/-- A numeric array together with its declared shape, as handed to the
engine: `entry` reads one scalar at a multi-index. -/
structure NArr where
  shape : List ℕ
  entry : List ℕ → ℚ

/-- Modelled from the spec: the shape-consistency check the FilterSmoother
engine performs before any recursion step.  The initial distribution must be
`(n_states, n_bins)`, the continuous transition tensor
`(n_states, n_states, n_bins, n_bins)`, the discrete transition matrix
`(n_states, n_states)` and the likelihood `(n_time, n_states, n_bins)`;
`none` signals an inconsistency. -/
def engine_dims (icS trS dtS likeS : List ℕ) : Option (ℕ × ℕ × ℕ) :=
  match icS, trS, dtS, likeS with
  | [s, b], [s1, s2, b1, b2], [s3, s4], [t, s5, b3] =>
      if s1 = s ∧ s2 = s ∧ b1 = b ∧ b2 = b ∧ s3 = s ∧ s4 = s ∧ s5 = s ∧
          b3 = b then
        some (s, b, t)
      else none
  | _, _, _, _ => none

/-- Modelled from the spec: the FilterSmoother engine entry
(`_causal_classify` of `replay_trajectory_classification.core`; the module
is not among the two source files, only its caller `_get_results` is).  It
validates the shapes of the initial distribution, transition tensors and
likelihood first and fails fast with `ShapeMismatch` — no recursion step is
performed and no partial posterior exists in the error case; otherwise it
runs the causal recursion. -/
def filter_smoother_run (intr : ℕ → Bool) (ic tr dt like : NArr) :
    Except EngineError (ℕ → ℕ → ℕ → ℚ) :=
  match engine_dims ic.shape tr.shape dt.shape like.shape with
  | none => Except.error EngineError.ShapeMismatch
  | some (s, b, _) =>
      Except.ok (causal_post s b intr
        (fun i j => ic.entry [i, j])
        (fun i j c d => tr.entry [i, j, c, d])
        (fun i j => dt.entry [i, j])
        (fun u i j => like.entry [u, i, j]))

/-- The mutable model state the refinement loop of `estimate_parameters`
(classifier.py, lines 306-402) may replace between iterations:
`initial_conditions_`, `discrete_state_transition_` and — read-only for the
loop — `continuous_state_transition_`. -/
structure EMState where
  initial_conditions : ℕ → ℕ → ℚ
  discrete_state_transition : ℕ → ℕ → ℚ
  continuous_state_transition : ℕ → ℕ → ℕ → ℕ → ℚ

/-- What one full filter/smooth pass returns to the refinement loop: the
smoothed (acausal) posterior indexed `(time, state, bin)` and the data
log-likelihood. -/
structure PassResult where
  acausal_posterior : ℕ → ℕ → ℕ → ℚ
  data_log_likelihood : ℚ

/-- Body of the `while` loop of `estimate_parameters` (classifier.py, lines
368-375): if enabled, overwrite the initial conditions with the smoothed
posterior at time 0 of the previous pass
(`results.isel(time=0).acausal_posterior`); if enabled, re-estimate the
discrete transition matrix (`estimate_discrete_state_transition` lives in
`discrete_state_transitions.py`, not among the two source files, and is
taken as an arbitrary function argument).  The continuous transition is
untouched. -/
def em_update_state (est_ic est_dt : Bool)
    (estimateDiscrete : EMState → PassResult → (ℕ → ℕ → ℚ))
    (st : EMState) (res : PassResult) : EMState :=
  let st1 := if est_ic then
      { st with initial_conditions := res.acausal_posterior 0 }
    else st
  if est_dt then
    { st1 with discrete_state_transition := estimateDiscrete st1 res }
  else st1

/-- The loop-carried data of `estimate_parameters`: current model state,
latest pass result, the per-iteration data-log-likelihood trace, the
iteration counter and the convergence flag. -/
structure EMLoop where
  state : EMState
  results : PassResult
  dlls : List ℚ
  n_iter : ℕ
  converged : Bool

/-- The `while not converged and (n_iter < max_iter)` loop of
`estimate_parameters` (classifier.py, lines 367-397), with the filter/smooth
pass (`self._get_results` or `self.predict`) abstracted as `getResults` and
`check_converged` (from `replay_trajectory_classification.core`, not among
the two source files) abstracted as `checkConv` returning
`(is_converged, is_increasing)`.  The `fuel` argument makes the recursion
structural; `estimate_parameters` supplies `fuel = max_iter`, which the
guard `n_iter < max_iter` never exceeds. -/
def em_iterate (getResults : EMState → PassResult)
    (estimateDiscrete : EMState → PassResult → (ℕ → ℕ → ℚ))
    (checkConv : ℚ → ℚ → ℚ → Bool × Bool) (tol : ℚ)
    (est_ic est_dt : Bool) (max_iter : ℕ) : EMLoop → ℕ → EMLoop
  | ls, 0 => ls
  | ls, fuel + 1 =>
      if ls.converged = true ∨ max_iter ≤ ls.n_iter then ls
      else
        let st2 := em_update_state est_ic est_dt estimateDiscrete
          ls.state ls.results
        let res2 := getResults st2
        em_iterate getResults estimateDiscrete checkConv tol est_ic est_dt
          max_iter
          ⟨st2, res2, ls.dlls ++ [res2.data_log_likelihood], ls.n_iter + 1,
           (checkConv res2.data_log_likelihood (ls.dlls.getLastD 0) tol).1⟩
          fuel

/-- `estimate_parameters` (classifier.py, lines 306-402) after the initial
fit/predict produced `st0` and `res0`: run the refinement loop and return
the final results, the full data-log-likelihood trace and whether the
"max iterations reached" warning is emitted (`not converged and
n_iter == max_iter`, line 399) — a reported flag, not an exception. -/
def estimate_parameters_loop (getResults : EMState → PassResult)
    (estimateDiscrete : EMState → PassResult → (ℕ → ℕ → ℚ))
    (checkConv : ℚ → ℚ → ℚ → Bool × Bool) (tol : ℚ)
    (est_ic est_dt : Bool) (max_iter : ℕ) (st0 : EMState)
    (res0 : PassResult) : PassResult × List ℚ × Bool :=
  let fin := em_iterate getResults estimateDiscrete checkConv tol est_ic
    est_dt max_iter ⟨st0, res0, [res0.data_log_likelihood], 0, false⟩
    max_iter
  (fin.results, fin.dlls, (!fin.converged) && (fin.n_iter == max_iter))

def stW : EMState := ⟨fun _ _ => 0, fun _ _ => 0, fun _ _ _ _ => 0⟩

def resW : PassResult := ⟨fun _ _ _ => 1, 0⟩

def lsW : EMLoop := ⟨stW, resW, [0], 0, false⟩

def gRW : EMState → PassResult := fun _ => resW

def eDW : EMState → PassResult → (ℕ → ℕ → ℚ) := fun _ _ => fun _ _ => 0

def cCW : ℚ → ℚ → ℚ → Bool × Bool := fun _ _ _ => (false, true)

/-- `_get_results` likelihood assembly (classifier.py, lines 546-557): the
`(n_time, n_states, max_pos_bins_, 1)` array is initialized to `NaN`
(`none`) and, for each state, the first `n_bins` entries of the bin axis are
filled from that state's raw likelihood array (whose own undefined entries
may also be `NaN`).  The trailing singleton axis is elided.  `nb s` is the
bin count of state `s`'s likelihood array. -/
def assemble_likelihood (S maxB : ℕ) (nb : ℕ → ℕ)
    (raw : ℕ → ℕ → ℕ → Option ℚ) : ℕ → ℕ → ℕ → Option ℚ :=
  fun t s b => if s < S ∧ b < maxB ∧ b < nb s then raw s t b else none

/-- The defined (non-`NaN`) entries of one time slice of the assembled
likelihood, across the joint `(state, bin)` axes. -/
def slice_defined (S maxB : ℕ) (a : ℕ → ℕ → Option ℚ) : List ℚ :=
  (List.range S).flatMap
    (fun s => (List.range maxB).filterMap (fun b => a s b))

/-- Maximum of a list of rationals, 0 for the empty list. -/
def list_max (l : List ℚ) : ℚ :=
  l.foldr max 0

/-- The per-time-step normalizing statistic: the maximum of the defined
entries across the joint `(state, bin)` axes (`axis=(1, 2)`). -/
def step_max (S maxB : ℕ) (a : ℕ → ℕ → Option ℚ) : ℚ :=
  list_max (slice_defined S maxB a)

/-- Modelled from the spec: `scaled_likelihood` from
`replay_trajectory_classification.core` (not among the two source files),
as called with `axis=(1, 2)` by `_get_results` (line 559): every value of a
time step is divided by that step's maximum across the joint
`(state, bin)` axes; `NaN` entries stay `NaN` at this stage. -/
def scaled_likelihood_arr (S maxB : ℕ) (arr : ℕ → ℕ → ℕ → Option ℚ) :
    ℕ → ℕ → ℕ → Option ℚ :=
  fun t s b => (arr t s b).map (fun q => q / step_max S maxB (arr t))

/-- `results["likelihood"][np.isnan(results["likelihood"])] = 0.0`
(classifier.py, line 560): every `NaN` entry becomes 0 before the recursion
consumes the array. -/
def nan_to_zero (arr : ℕ → ℕ → ℕ → Option ℚ) : ℕ → ℕ → ℕ → ℚ :=
  fun t s b => (arr t s b).getD 0

/-- The scaled likelihood actually consumed by the recursions: assembled,
per-step scaled, then `NaN`-replaced (classifier.py, lines 546-560). -/
def engine_likelihood (S maxB : ℕ) (nb : ℕ → ℕ)
    (raw : ℕ → ℕ → ℕ → Option ℚ) : ℕ → ℕ → ℕ → ℚ :=
  nan_to_zero (scaled_likelihood_arr S maxB (assemble_likelihood S maxB nb raw))

/-- Zero-padding of one row to the shared width `max_pos_bins_`: the numpy
fill `zeros[state_ind, : ic.shape[0]] = ic` of `fit_initial_conditions`
(classifier.py, lines 153-157; the trailing singleton axis from
`ic[..., np.newaxis]` is elided). -/
def pad_row (maxB : ℕ) (l : List ℚ) : List ℚ :=
  l ++ List.replicate (maxB - l.length) 0

/-- `fit_initial_conditions` (classifier.py, lines 142-157): the per-state
initial conditions produced by `make_initial_conditions` (module
`initial_conditions.py`, not among the two source files, hence taken as an
abstract list argument) are written into the leading entries of a zeroed
`(n_states, max_pos_bins_, 1)` array. -/
def fit_initial_conditions_arr (maxB : ℕ) (ics : List (List ℚ)) :
    List (List ℚ) :=
  ics.map (pad_row maxB)

/-- Zero-padding of one regime-pair kernel into the leading
`(rows, cols)` block of a zeroed `(max_pos_bins_, max_pos_bins_)` matrix:
the numpy fill `zeros[row, col, : st.shape[0], : st.shape[1]] = st` of
`fit_continuous_state_transition` (classifier.py, lines 227-236). -/
def pad_kernel (maxB : ℕ) (st : List (List ℚ)) : List (List ℚ) :=
  st.map (pad_row maxB) ++ List.replicate (maxB - st.length)
    (List.replicate maxB 0)

/-- `fit_continuous_state_transition` (classifier.py, lines 227-236): every
regime pair's kernel is padded into its leading block of the
`(n_states, n_states, max_pos_bins_, max_pos_bins_)` tensor. -/
def fit_continuous_state_transition_arr (maxB : ℕ)
    (sts : List (List (List (List ℚ)))) : List (List (List (List ℚ))) :=
  sts.map (fun row => row.map (pad_kernel maxB))

/-- Entry of a two-axis nested-list array, 0 outside the stored extent. -/
def entry2 (ll : List (List ℚ)) (s b : ℕ) : ℚ :=
  (ll.getD s []).getD b 0

/-- Entry of a four-axis nested-list array, 0 outside the stored extent. -/
def entry4 (tt : List (List (List (List ℚ)))) (i j b b2 : ℕ) : ℚ :=
  (((tt.getD i []).getD j []).getD b []).getD b2 0

/-- `ObservationModel` (observation_model.py): which environment and
encoding group a discrete state's data correspond to.  The code's default
`encoding_group` value is the literal `0`, modelled as a natural number. -/
structure ObservationModel where
  environment_name : String
  encoding_group : ℕ
deriving Repr, DecidableEq

/-- The default encoding group of `ObservationModel`
(observation_model.py, line 20). -/
def default_encoding_group : ℕ := 0

/-- The configuration fields `_ClassifierBase.__init__` stores
(classifier.py, lines 110-115); the continuous/discrete/initial-condition
transition type objects are opaque to construction and kept as type
parameters. -/
structure ClassifierBase (CT DT IT : Type) where
  environments : List Environment
  observation_models : List ObservationModel
  continuous_transition_types : List (List CT)
  discrete_transition_type : DT
  initial_conditions_type : IT
  infer_track_interior : Bool

/-- `_ClassifierBase.__init__` (classifier.py, lines 78-115): a bare
`Environment` argument is wrapped into a one-element tuple; when
`observation_models` is `None`, one `ObservationModel` per discrete state
(`n_states = len(continuous_transition_types)`) is created, each
referencing the first environment's name with the default encoding
group. -/
def classifier_init {CT DT IT : Type}
    (environments : Environment ⊕ List Environment)
    (observation_models : Option (List ObservationModel))
    (continuous_transition_types : List (List CT))
    (discrete_transition_type : DT) (initial_conditions_type : IT)
    (infer_track_interior : Bool) : ClassifierBase CT DT IT :=
  let envList := match environments with
    | Sum.inl e => [e]
    | Sum.inr l => l
  let obsList := match observation_models with
    | none => List.replicate continuous_transition_types.length
        ⟨(envList.headD ⟨"", []⟩).environment_name, default_encoding_group⟩
    | some l => l
  ⟨envList, obsList, continuous_transition_types, discrete_transition_type,
   initial_conditions_type, infer_track_interior⟩

theorem mask_arr_normalizeSlice (S B : ℕ) (intr : ℕ → Bool)
    (u : ℕ → ℕ → ℚ) :
    mask_arr intr (normalizeSlice S B intr u) = normalizeSlice S B intr u := by
  funext s b
  by_cases h : intr b = true
  · simp [mask_arr, h]
  · have hb : b ∉ interiorBins B intr := by
      simp [interiorBins, h]
    simp [mask_arr, normalizeSlice, h, hb]

theorem sum_normalizeSlice (S B : ℕ) (intr : ℕ → Bool) (u : ℕ → ℕ → ℚ)
    (h : sliceSum S B intr u ≠ 0) :
    ∑ s ∈ Finset.range S, ∑ b ∈ Finset.range B,
      normalizeSlice S B intr u s b = 1 := by
  have hrow : ∀ s, ∑ b ∈ Finset.range B, normalizeSlice S B intr u s b
      = ∑ b ∈ interiorBins B intr, u s b / sliceSum S B intr u := by
    intro s
    rw [interiorBins, Finset.sum_filter]
    apply Finset.sum_congr rfl
    intro b hb
    by_cases hc : intr b = true
    · have : b ∈ interiorBins B intr := by
        simp [interiorBins, hb, hc]
      simp [normalizeSlice, this, hc]
    · have : b ∉ interiorBins B intr := by
        simp [interiorBins, hc]
      simp [normalizeSlice, this, hc]
  calc ∑ s ∈ Finset.range S, ∑ b ∈ Finset.range B,
        normalizeSlice S B intr u s b
      = ∑ s ∈ Finset.range S, ∑ b ∈ interiorBins B intr,
          u s b / sliceSum S B intr u := by
        exact Finset.sum_congr rfl (fun s _ => hrow s)
    _ = (∑ s ∈ Finset.range S, ∑ b ∈ interiorBins B intr, u s b)
          / sliceSum S B intr u := by
        rw [Finset.sum_div]
        exact Finset.sum_congr rfl (fun s _ => (Finset.sum_div _ _ _).symm)
    _ = 1 := div_self h

theorem intr_of_mem_interiorBins {B : ℕ} {intr : ℕ → Bool} {b : ℕ}
    (hb : b ∈ interiorBins B intr) : intr b = true := by
  simp only [interiorBins, Finset.mem_filter] at hb
  exact hb.2

theorem causal_unnorm_congr_interior (S B : ℕ) (intr : ℕ → Bool)
    (ic ic' : ℕ → ℕ → ℚ) (ctr ctr' : ℕ → ℕ → ℕ → ℕ → ℚ)
    (dtr : ℕ → ℕ → ℚ) (like like' : ℕ → ℕ → ℕ → ℚ)
    (hic : ∀ s b, intr b = true → ic s b = ic' s b)
    (hctr : ∀ s s2 b b2, intr b = true → intr b2 = true →
      ctr s s2 b b2 = ctr' s s2 b b2)
    (hlike : ∀ t s b, intr b = true → like t s b = like' t s b) :
    ∀ t s b, b ∈ interiorBins B intr →
      causal_unnorm S B intr ic ctr dtr like t s b
        = causal_unnorm S B intr ic' ctr' dtr like' t s b := by
  intro t
  induction t with
  | zero =>
    intro s b hb
    have hbi := intr_of_mem_interiorBins hb
    simp only [causal_unnorm]
    rw [hic s b hbi, hlike 0 s b hbi]
  | succ t ih =>
    intro s2 b2 hb2
    have hb2i := intr_of_mem_interiorBins hb2
    have hsum : sliceSum S B intr (causal_unnorm S B intr ic ctr dtr like t)
        = sliceSum S B intr (causal_unnorm S B intr ic' ctr' dtr like' t) := by
      refine Finset.sum_congr rfl (fun s _ => ?_)
      exact Finset.sum_congr rfl (fun b hb => ih s b hb)
    simp only [causal_unnorm]
    rw [hlike (t + 1) s2 b2 hb2i]
    congr 1
    refine Finset.sum_congr rfl (fun s _ => ?_)
    refine Finset.sum_congr rfl (fun b hb => ?_)
    have hbi := intr_of_mem_interiorBins hb
    rw [hctr s s2 b b2 hbi hb2i]
    congr 1
    simp only [normalizeSlice, hb, if_pos]
    rw [ih s b hb, hsum]

theorem causal_post_congr_interior (S B : ℕ) (intr : ℕ → Bool)
    (ic ic' : ℕ → ℕ → ℚ) (ctr ctr' : ℕ → ℕ → ℕ → ℕ → ℚ)
    (dtr : ℕ → ℕ → ℚ) (like like' : ℕ → ℕ → ℕ → ℚ)
    (hic : ∀ s b, intr b = true → ic s b = ic' s b)
    (hctr : ∀ s s2 b b2, intr b = true → intr b2 = true →
      ctr s s2 b b2 = ctr' s s2 b b2)
    (hlike : ∀ t s b, intr b = true → like t s b = like' t s b) :
    causal_post S B intr ic ctr dtr like
      = causal_post S B intr ic' ctr' dtr like' := by
  funext t s b
  have hcu := causal_unnorm_congr_interior S B intr ic ic' ctr ctr' dtr
    like like' hic hctr hlike
  have hsum : sliceSum S B intr (causal_unnorm S B intr ic ctr dtr like t)
      = sliceSum S B intr (causal_unnorm S B intr ic' ctr' dtr like' t) := by
    refine Finset.sum_congr rfl (fun s _ => ?_)
    exact Finset.sum_congr rfl (fun b hb => hcu t s b hb)
  simp only [causal_post, normalizeSlice]
  by_cases hb : b ∈ interiorBins B intr
  · rw [if_pos hb, if_pos hb, hcu t s b hb, hsum]
  · rw [if_neg hb, if_neg hb]

/-- Claim C1: in single-environment mode (`_get_results` with exactly one
environment), the causal and acausal recursions are computed only over the
interior bins — non-interior entries of the transition tensor, likelihood
and initial distribution are excluded from the contraction and the
normalization (changing them at non-interior indices cannot change the
result) — and in the returned result the posterior mass at every
non-interior bin is exactly 0 at every time step, while the interior bins
still sum to 1 whenever the per-step normalizer is nonzero. -/
theorem single_env_posterior_interior_only (envs : List Environment) (S : ℕ)
    (ic : ℕ → ℕ → ℚ) (ctr : ℕ → ℕ → ℕ → ℕ → ℚ) (dtr : ℕ → ℕ → ℚ)
    (like : ℕ → ℕ → ℕ → ℚ) (h1 : envs.length = 1) :
    (∀ t s b, single_intr envs b = false →
      get_results_causal envs S ic ctr dtr like t s b = 0)
    ∧ (∀ T t s b, single_intr envs b = false →
      get_results_acausal envs S T ic ctr dtr like t s b = 0)
    ∧ (∀ ic' ctr' like',
        (∀ s b, single_intr envs b = true → ic s b = ic' s b) →
        (∀ s s2 b b2, single_intr envs b = true →
          single_intr envs b2 = true → ctr s s2 b b2 = ctr' s s2 b b2) →
        (∀ t s b, single_intr envs b = true → like t s b = like' t s b) →
        get_results_causal envs S ic ctr dtr like
          = get_results_causal envs S ic' ctr' dtr like')
    ∧ (∀ t, causal_step_norm S (env0 envs).n_bins (single_intr envs)
          ic ctr dtr like t ≠ 0 →
        ∑ s ∈ Finset.range S, ∑ b ∈ Finset.range (env0 envs).n_bins,
          get_results_causal envs S ic ctr dtr like t s b = 1) := by
  refine ⟨?_, ?_, ?_, ?_⟩
  · intro t s b hb
    simp [get_results_causal, h1, mask_arr, hb]
  · intro T t s b hb
    simp [get_results_acausal, h1, mask_arr, hb]
  · intro ic' ctr' like' hic hctr hlike
    have hpost := causal_post_congr_interior S (env0 envs).n_bins
      (single_intr envs) ic ic' ctr ctr' dtr like like' hic hctr hlike
    simp only [get_results_causal, h1, if_pos]
    rw [hpost]
  · intro t hnorm
    simp only [get_results_causal, h1, if_pos, causal_post]
    rw [mask_arr_normalizeSlice]
    exact sum_normalizeSlice S (env0 envs).n_bins (single_intr envs) _ hnorm

theorem single_env_posterior_interior_only_witness :
    envsW.length = 1
    ∧ get_results_causal envsW 1 (fun _ _ => 1) (fun _ _ _ _ => 1)
        (fun _ _ => 1) (fun _ _ _ => 1) 1 0 2 = 0
    ∧ causal_step_norm 1 (env0 envsW).n_bins (single_intr envsW)
        (fun _ _ => 1) (fun _ _ _ _ => 1) (fun _ _ => 1) (fun _ _ _ => 1)
        0 ≠ 0
    ∧ (∑ s ∈ Finset.range 1, ∑ b ∈ Finset.range (env0 envsW).n_bins,
        get_results_causal envsW 1 (fun _ _ => 1) (fun _ _ _ _ => 1)
          (fun _ _ => 1) (fun _ _ _ => 1) 0 s b) = 1 := by
  have hn : causal_step_norm 1 (env0 envsW).n_bins (single_intr envsW)
      (fun _ _ => 1) (fun _ _ _ _ => 1) (fun _ _ => 1) (fun _ _ _ => 1)
      0 ≠ 0 := by
    simp only [causal_step_norm, causal_unnorm, sliceSum, interiorBins,
      single_intr, env0, envsW, Environment.n_bins, Finset.sum_filter,
      Finset.sum_range_succ, Finset.sum_range_zero]
    norm_num
    decide
  exact ⟨by decide,
    (single_env_posterior_interior_only envsW 1 (fun _ _ => 1)
      (fun _ _ _ _ => 1) (fun _ _ => 1) (fun _ _ _ => 1) (by decide)).1
      1 0 2 (by decide),
    hn,
    (single_env_posterior_interior_only envsW 1 (fun _ _ => 1)
      (fun _ _ _ _ => 1) (fun _ _ => 1) (fun _ _ _ => 1) (by decide)).2.2.2
      0 hn⟩

/-- Claim C8: when more than one environment is active, `_get_results`
applies no per-step interior-bin masking: the causal and acausal recursions
are exactly the recursions over the full padded joint state of bin width
`max_pos_bins_` under the trivially-true mask (every padded bin index
`b < max_pos_bins_` belongs to the contracted index set), and the shared
width is the maximum bin count over all environments, as computed by
`fit_environments`. -/
theorem multi_env_no_interior_masking (envs : List Environment) (S : ℕ)
    (ic : ℕ → ℕ → ℚ) (ctr : ℕ → ℕ → ℕ → ℕ → ℚ) (dtr : ℕ → ℕ → ℚ)
    (like : ℕ → ℕ → ℕ → ℚ) (h : 1 < envs.length) :
    get_results_causal envs S ic ctr dtr like
      = causal_post S (max_pos_bins_calc envs) (fun _ => true) ic ctr dtr like
    ∧ (∀ T, get_results_acausal envs S T ic ctr dtr like
        = fun t => acausal_post S (max_pos_bins_calc envs) T (fun _ => true)
            ic ctr dtr like t)
    ∧ (∀ b, b ∈ interiorBins (max_pos_bins_calc envs) (fun _ => true)
        ↔ b < max_pos_bins_calc envs)
    ∧ max_pos_bins_calc envs = (envs.map Environment.n_bins).foldr max 0 := by
  have hne : ¬ envs.length = 1 := by omega
  refine ⟨?_, ?_, ?_, rfl⟩
  · simp only [get_results_causal, if_neg hne]
  · intro T
    simp only [get_results_acausal, if_neg hne]
  · intro b
    simp [interiorBins]

theorem multi_env_no_interior_masking_witness :
    1 < envs2W.length
    ∧ get_results_causal envs2W 2 (fun _ _ => 1) (fun _ _ _ _ => 1)
        (fun _ _ => 1) (fun _ _ _ => 1)
      = causal_post 2 (max_pos_bins_calc envs2W) (fun _ => true)
          (fun _ _ => 1) (fun _ _ _ _ => 1) (fun _ _ => 1)
          (fun _ _ _ => 1) :=
  ⟨by decide,
   (multi_env_no_interior_masking envs2W 2 (fun _ _ => 1)
      (fun _ _ _ _ => 1) (fun _ _ => 1) (fun _ _ _ => 1) (by decide)).1⟩

/-- Claim C2: whenever the transition tensor, likelihood array or initial
distribution have mutually inconsistent shapes, the engine invocation fails
fast with a `ShapeMismatch` error: the result is the bare error value, so no
recursion step was performed and no partial computation is returned. -/
theorem shape_mismatch_fails_fast (intr : ℕ → Bool) (ic tr dt like : NArr)
    (h : engine_dims ic.shape tr.shape dt.shape like.shape = none) :
    filter_smoother_run intr ic tr dt like
      = Except.error EngineError.ShapeMismatch := by
  simp only [filter_smoother_run, h]

theorem shape_mismatch_fails_fast_witness :
    engine_dims [2, 3] [2, 2, 3, 4] [2, 2] [5, 2, 3] = none
    ∧ filter_smoother_run (fun _ => true) ⟨[2, 3], fun _ => 1⟩
        ⟨[2, 2, 3, 4], fun _ => 1⟩ ⟨[2, 2], fun _ => 1⟩
        ⟨[5, 2, 3], fun _ => 1⟩
      = Except.error EngineError.ShapeMismatch :=
  ⟨by decide,
   shape_mismatch_fails_fast (fun _ => true) ⟨[2, 3], fun _ => 1⟩
     ⟨[2, 2, 3, 4], fun _ => 1⟩ ⟨[2, 2], fun _ => 1⟩
     ⟨[5, 2, 3], fun _ => 1⟩ (by decide)⟩

theorem em_iterate_n_iter_le (getResults : EMState → PassResult)
    (estimateDiscrete : EMState → PassResult → (ℕ → ℕ → ℚ))
    (checkConv : ℚ → ℚ → ℚ → Bool × Bool) (tol : ℚ)
    (est_ic est_dt : Bool) (max_iter : ℕ) :
    ∀ fuel (ls : EMLoop), ls.n_iter ≤ max_iter →
      (em_iterate getResults estimateDiscrete checkConv tol est_ic est_dt
        max_iter ls fuel).n_iter ≤ max_iter := by
  intro fuel
  induction fuel with
  | zero => intro ls h; simpa [em_iterate] using h
  | succ fuel ih =>
      intro ls h
      by_cases hc : ls.converged = true ∨ max_iter ≤ ls.n_iter
      · simpa [em_iterate, hc] using h
      · have hlt : ls.n_iter < max_iter := by
          rcases Nat.lt_or_ge ls.n_iter max_iter with h1 | h1
          · exact h1
          · exact absurd (Or.inr h1) hc
        simp only [em_iterate, if_neg hc]
        exact ih _ hlt

theorem em_iterate_dlls_len (getResults : EMState → PassResult)
    (estimateDiscrete : EMState → PassResult → (ℕ → ℕ → ℚ))
    (checkConv : ℚ → ℚ → ℚ → Bool × Bool) (tol : ℚ)
    (est_ic est_dt : Bool) (max_iter : ℕ) :
    ∀ fuel (ls : EMLoop), ls.dlls.length = ls.n_iter + 1 →
      (em_iterate getResults estimateDiscrete checkConv tol est_ic est_dt
          max_iter ls fuel).dlls.length
        = (em_iterate getResults estimateDiscrete checkConv tol est_ic
            est_dt max_iter ls fuel).n_iter + 1 := by
  intro fuel
  induction fuel with
  | zero => intro ls h; simpa [em_iterate] using h
  | succ fuel ih =>
      intro ls h
      by_cases hc : ls.converged = true ∨ max_iter ≤ ls.n_iter
      · simpa [em_iterate, hc] using h
      · simp only [em_iterate, if_neg hc]
        refine ih _ ?_
        simp [h]

/-- Claim C4: for every tolerance, iteration cap, pass function and
convergence test, the refinement loop of `estimate_parameters` terminates
after at most `max_iter` iterations (the loop is a total function and its
final iteration counter never exceeds the cap); reaching the cap without
converging is only a reported boolean warning in the returned triple, never
an error value, and the final result and the full per-iteration
log-likelihood trace (one entry per pass, including the initial one) are
returned in every case. -/
theorem estimate_parameters_iteration_bound
    (getResults : EMState → PassResult)
    (estimateDiscrete : EMState → PassResult → (ℕ → ℕ → ℚ))
    (checkConv : ℚ → ℚ → ℚ → Bool × Bool) (tol : ℚ)
    (est_ic est_dt : Bool) (max_iter : ℕ) (st0 : EMState)
    (res0 : PassResult) :
    (em_iterate getResults estimateDiscrete checkConv tol est_ic est_dt
        max_iter ⟨st0, res0, [res0.data_log_likelihood], 0, false⟩
        max_iter).n_iter ≤ max_iter
    ∧ (em_iterate getResults estimateDiscrete checkConv tol est_ic est_dt
          max_iter ⟨st0, res0, [res0.data_log_likelihood], 0, false⟩
          max_iter).dlls.length
      = (em_iterate getResults estimateDiscrete checkConv tol est_ic est_dt
          max_iter ⟨st0, res0, [res0.data_log_likelihood], 0, false⟩
          max_iter).n_iter + 1
    ∧ estimate_parameters_loop getResults estimateDiscrete checkConv tol
        est_ic est_dt max_iter st0 res0
      = ((em_iterate getResults estimateDiscrete checkConv tol est_ic
            est_dt max_iter ⟨st0, res0, [res0.data_log_likelihood], 0,
            false⟩ max_iter).results,
         (em_iterate getResults estimateDiscrete checkConv tol est_ic
            est_dt max_iter ⟨st0, res0, [res0.data_log_likelihood], 0,
            false⟩ max_iter).dlls,
         (!(em_iterate getResults estimateDiscrete checkConv tol est_ic
            est_dt max_iter ⟨st0, res0, [res0.data_log_likelihood], 0,
            false⟩ max_iter).converged)
           && ((em_iterate getResults estimateDiscrete checkConv tol est_ic
            est_dt max_iter ⟨st0, res0, [res0.data_log_likelihood], 0,
            false⟩ max_iter).n_iter == max_iter)) :=
  ⟨em_iterate_n_iter_le getResults estimateDiscrete checkConv tol est_ic
      est_dt max_iter max_iter _ (Nat.zero_le _),
   em_iterate_dlls_len getResults estimateDiscrete checkConv tol est_ic
      est_dt max_iter max_iter _ rfl,
   rfl⟩

/-- Claim C5: in every refinement iteration with
`estimate_initial_conditions` enabled, the model's initial distribution is
overwritten with the smoothed (acausal) posterior at time 0 of the previous
pass, and the next filter/smooth pass is invoked on exactly that updated
state: one loop unfolding first builds
`em_update_state true … ls.state ls.results` (whose initial conditions are
`ls.results.acausal_posterior 0`) and then runs `getResults` on it. -/
theorem em_initial_conditions_overwrite (getResults : EMState → PassResult)
    (estimateDiscrete : EMState → PassResult → (ℕ → ℕ → ℚ))
    (checkConv : ℚ → ℚ → ℚ → Bool × Bool) (tol : ℚ) (est_dt : Bool)
    (max_iter : ℕ) (ls : EMLoop) (fuel : ℕ)
    (hconv : ls.converged = false) (hiter : ls.n_iter < max_iter) :
    (em_update_state true est_dt estimateDiscrete ls.state
        ls.results).initial_conditions
      = ls.results.acausal_posterior 0
    ∧ em_iterate getResults estimateDiscrete checkConv tol true est_dt
        max_iter ls (fuel + 1)
      = em_iterate getResults estimateDiscrete checkConv tol true est_dt
          max_iter
          ⟨em_update_state true est_dt estimateDiscrete ls.state ls.results,
           getResults (em_update_state true est_dt estimateDiscrete
             ls.state ls.results),
           ls.dlls ++ [(getResults (em_update_state true est_dt
             estimateDiscrete ls.state ls.results)).data_log_likelihood],
           ls.n_iter + 1,
           (checkConv (getResults (em_update_state true est_dt
               estimateDiscrete ls.state ls.results)).data_log_likelihood
             (ls.dlls.getLastD 0) tol).1⟩
          fuel := by
  have hne : ¬ (ls.converged = true ∨ max_iter ≤ ls.n_iter) := by
    rw [hconv]
    simp
    omega
  constructor
  · cases est_dt <;> simp [em_update_state]
  · simp only [em_iterate, if_neg hne]

theorem em_initial_conditions_overwrite_witness :
    (em_update_state true false eDW lsW.state lsW.results).initial_conditions
      = lsW.results.acausal_posterior 0 :=
  (em_initial_conditions_overwrite gRW eDW cCW 0 false 5 lsW 0 rfl
    (by decide)).1

/-- Claim C6: the continuous (per-regime-pair) transition kernels are never
re-estimated or mutated by the refinement loop of `estimate_parameters`:
the state update of one iteration leaves `continuous_state_transition_`
unchanged, and after any number of iterations from any loop state the
fitted continuous transition tensor is identical to the one before, while
only the discrete transition matrix and the initial conditions may be
replaced. -/
theorem em_continuous_transition_immutable
    (getResults : EMState → PassResult)
    (estimateDiscrete : EMState → PassResult → (ℕ → ℕ → ℚ))
    (checkConv : ℚ → ℚ → ℚ → Bool × Bool) (tol : ℚ)
    (est_ic est_dt : Bool) (max_iter : ℕ) :
    (∀ st res, (em_update_state est_ic est_dt estimateDiscrete st
          res).continuous_state_transition
        = st.continuous_state_transition)
    ∧ ∀ fuel (ls : EMLoop),
        (em_iterate getResults estimateDiscrete checkConv tol est_ic est_dt
            max_iter ls fuel).state.continuous_state_transition
          = ls.state.continuous_state_transition := by
  have hupd : ∀ st res, (em_update_state est_ic est_dt estimateDiscrete st
      res).continuous_state_transition = st.continuous_state_transition := by
    intro st res
    cases est_ic <;> cases est_dt <;> simp [em_update_state]
  refine ⟨hupd, ?_⟩
  intro fuel
  induction fuel with
  | zero => intro ls; simp [em_iterate]
  | succ fuel ih =>
      intro ls
      by_cases hc : ls.converged = true ∨ max_iter ≤ ls.n_iter
      · simp [em_iterate, hc]
      · simp only [em_iterate, if_neg hc]
        rw [ih]
        exact hupd ls.state ls.results

theorem list_max_nonneg (l : List ℚ) : 0 ≤ list_max l := by
  induction l with
  | nil => simp [list_max]
  | cons a t ih =>
      simp only [list_max, List.foldr_cons]
      exact le_trans ih (le_max_right a _)

theorem le_list_max (l : List ℚ) (x : ℚ) (hx : x ∈ l) : x ≤ list_max l := by
  induction l with
  | nil => cases hx
  | cons a t ih =>
      rcases List.mem_cons.mp hx with h | h
      · rw [h]
        exact le_max_left _ _
      · exact le_trans (ih h) (le_max_right _ _)

theorem mem_slice_defined (S maxB : ℕ) (a : ℕ → ℕ → Option ℚ) (s b : ℕ)
    (q : ℚ) (hq : a s b = some q) (hs : s < S) (hb : b < maxB) :
    q ∈ slice_defined S maxB a := by
  simp only [slice_defined, List.mem_flatMap, List.mem_filterMap,
    List.mem_range]
  exact ⟨s, hs, b, hb, hq⟩

/-- Claim C7: the scaled likelihood consumed by the recursion keeps the
assembled array's shape (it is a pointwise transformation: indices outside
the assembled `(n_time, n_states, max_pos_bins_)` extent carry `none` and
read 0), every `NaN` entry has been replaced by 0 before use, and within
each time step every defined value has been divided by that step's maximum
across the joint `(state, bin)` axes, so that — for nonnegative raw
likelihoods — no per-step value exceeds 1, and relative ratios within the
step are preserved (`scaled[x] * raw[y] = scaled[y] * raw[x]`). -/
theorem scaled_likelihood_properties (S maxB : ℕ) (nb : ℕ → ℕ)
    (raw : ℕ → ℕ → ℕ → Option ℚ)
    (hnn : ∀ s t b q, raw s t b = some q → 0 ≤ q) :
    (∀ t s b, assemble_likelihood S maxB nb raw t s b = none →
      engine_likelihood S maxB nb raw t s b = 0)
    ∧ (∀ t s b, ¬ (s < S ∧ b < maxB ∧ b < nb s) →
      assemble_likelihood S maxB nb raw t s b = none)
    ∧ (∀ t s b, engine_likelihood S maxB nb raw t s b ≤ 1)
    ∧ (∀ t s b s2 b2 q q2,
        assemble_likelihood S maxB nb raw t s b = some q →
        assemble_likelihood S maxB nb raw t s2 b2 = some q2 →
        engine_likelihood S maxB nb raw t s b * q2
          = engine_likelihood S maxB nb raw t s2 b2 * q) := by
  have hsome : ∀ t s b q, assemble_likelihood S maxB nb raw t s b = some q →
      (s < S ∧ b < maxB ∧ b < nb s) ∧ raw s t b = some q := by
    intro t s b q h
    by_cases hc : s < S ∧ b < maxB ∧ b < nb s
    · refine ⟨hc, ?_⟩
      simpa [assemble_likelihood, if_pos hc] using h
    · simp [assemble_likelihood, if_neg hc] at h
  refine ⟨?_, ?_, ?_, ?_⟩
  · intro t s b h
    simp [engine_likelihood, nan_to_zero, scaled_likelihood_arr, h]
  · intro t s b h
    simp [assemble_likelihood, if_neg h]
  · intro t s b
    cases h : assemble_likelihood S maxB nb raw t s b with
    | none =>
        simp [engine_likelihood, nan_to_zero, scaled_likelihood_arr, h]
    | some q =>
        obtain ⟨hc, hraw⟩ := hsome t s b q h
        have hq0 : 0 ≤ q := hnn s t b q hraw
        have hmem : q ∈ slice_defined S maxB
            (assemble_likelihood S maxB nb raw t) :=
          mem_slice_defined S maxB _ s b q h hc.1 hc.2.1
        have hqm := le_list_max _ q hmem
        have hm0 : 0 ≤ step_max S maxB
            (assemble_likelihood S maxB nb raw t) :=
          list_max_nonneg _
        simp only [engine_likelihood, nan_to_zero, scaled_likelihood_arr, h,
          Option.map_some', Option.getD_some]
        rcases eq_or_lt_of_le hm0 with he | hl
        · rw [← he, div_zero]
          norm_num
        · exact (div_le_one hl).mpr hqm
  · intro t s b s2 b2 q q2 h1 h2
    simp only [engine_likelihood, nan_to_zero, scaled_likelihood_arr, h1, h2,
      Option.map_some', Option.getD_some]
    rw [div_mul_eq_mul_div, div_mul_eq_mul_div, mul_comm]

theorem scaled_likelihood_properties_witness :
    assemble_likelihood 1 2 (fun _ => 1) (fun _ _ _ => some (1 / 2))
        0 0 1 = none
    ∧ engine_likelihood 1 2 (fun _ => 1) (fun _ _ _ => some (1 / 2))
        0 0 1 = 0
    ∧ engine_likelihood 1 2 (fun _ => 1) (fun _ _ _ => some (1 / 2))
        0 0 0 ≤ 1 := by
  have h := scaled_likelihood_properties 1 2 (fun _ => 1)
    (fun _ _ _ => some (1 / 2))
    (by
      intro s t b q hq
      simp only [Option.some.injEq] at hq
      rw [← hq]
      norm_num)
  exact ⟨by decide, h.1 0 0 1 (by decide), h.2.2.1 0 0 0⟩

theorem replicate_zero_getD (k n : ℕ) :
    (List.replicate k (0 : ℚ)).getD n 0 = 0 := by
  induction k generalizing n with
  | zero => simp
  | succ k ih =>
      cases n with
      | zero => simp [List.replicate_succ]
      | succ n => simp [List.replicate_succ, ih]

theorem replicate_zero_rows_getD (k maxB n m : ℕ) :
    ((List.replicate k (List.replicate maxB (0 : ℚ))).getD n []).getD m 0
      = 0 := by
  induction k generalizing n with
  | zero => simp
  | succ k ih =>
      cases n with
      | zero =>
          rw [List.replicate_succ, List.getD_cons_zero]
          exact replicate_zero_getD maxB m
      | succ n =>
          rw [List.replicate_succ, List.getD_cons_succ]
          exact ih n

theorem pad_row_length (maxB : ℕ) (l : List ℚ) (h : l.length ≤ maxB) :
    (pad_row maxB l).length = maxB := by
  simp [pad_row]
  omega

theorem pad_row_getD_lt (maxB : ℕ) (l : List ℚ) (b : ℕ)
    (h : b < l.length) : (pad_row maxB l).getD b 0 = l.getD b 0 :=
  List.getD_append l _ 0 b h

theorem pad_row_getD_ge (maxB : ℕ) (l : List ℚ) (b : ℕ)
    (h : l.length ≤ b) : (pad_row maxB l).getD b 0 = 0 := by
  rw [pad_row, List.getD_append_right l _ 0 b h, replicate_zero_getD]

theorem map_getD_lt {α β : Type} (f : α → β) (l : List α) (da : α)
    (db : β) (s : ℕ) (h : s < l.length) :
    (l.map f).getD s db = f (l.getD s da) := by
  induction l generalizing s with
  | nil => cases h
  | cons a t ih =>
      cases s with
      | zero => simp
      | succ s =>
          simp only [List.map_cons, List.getD_cons_succ]
          exact ih s (Nat.lt_of_succ_lt_succ h)

theorem pad_kernel_length (maxB : ℕ) (st : List (List ℚ))
    (h : st.length ≤ maxB) : (pad_kernel maxB st).length = maxB := by
  simp [pad_kernel]
  omega

theorem pad_kernel_rows (maxB : ℕ) (st : List (List ℚ))
    (hrow : ∀ r ∈ st, r.length ≤ maxB) :
    ∀ rr ∈ pad_kernel maxB st, rr.length = maxB := by
  intro rr hrr
  rcases List.mem_append.mp hrr with h | h
  · obtain ⟨r0, hr0, hr⟩ := List.mem_map.mp h
    rw [← hr]
    exact pad_row_length maxB r0 (hrow r0 hr0)
  · rw [List.eq_of_mem_replicate h]
    simp

/-- Claim C9: after fitting, the padded model arrays keep the zero-padding
invariant.  `fit_initial_conditions` produces an array with one row per
state, each of width `max_pos_bins_`, whose entries beyond that state's own
bin count are 0 and whose leading entries are the state's initial
conditions.  `fit_continuous_state_transition` produces, for each regime
pair, a `max_pos_bins_ × max_pos_bins_` matrix whose leading block is the
pair's kernel and whose padded entries are all 0 — padded bins can never
receive probability mass from the transition model. -/
theorem fitted_padding_invariant (maxB : ℕ) (ics : List (List ℚ))
    (sts : List (List (List (List ℚ))))
    (hic : ∀ l ∈ ics, l.length ≤ maxB)
    (hst : ∀ row ∈ sts, ∀ k ∈ row,
      k.length ≤ maxB ∧ ∀ r ∈ k, r.length ≤ maxB) :
    ((fit_initial_conditions_arr maxB ics).length = ics.length
      ∧ ∀ row ∈ fit_initial_conditions_arr maxB ics, row.length = maxB)
    ∧ (∀ s b, (ics.getD s []).length ≤ b →
        entry2 (fit_initial_conditions_arr maxB ics) s b = 0)
    ∧ (∀ s b, b < (ics.getD s []).length →
        entry2 (fit_initial_conditions_arr maxB ics) s b
          = (ics.getD s []).getD b 0)
    ∧ ((fit_continuous_state_transition_arr maxB sts).length = sts.length
      ∧ ∀ row ∈ fit_continuous_state_transition_arr maxB sts, ∀ k ∈ row,
          k.length = maxB ∧ ∀ r ∈ k, r.length = maxB)
    ∧ (∀ i j b b2, ((sts.getD i []).getD j []).length ≤ b
          ∨ (((sts.getD i []).getD j []).getD b []).length ≤ b2 →
        entry4 (fit_continuous_state_transition_arr maxB sts) i j b b2 = 0)
    ∧ (∀ i j b b2, b < ((sts.getD i []).getD j []).length →
        b2 < (((sts.getD i []).getD j []).getD b []).length →
        entry4 (fit_continuous_state_transition_arr maxB sts) i j b b2
          = entry4 sts i j b b2) := by
  have hfit_in : ∀ s, s < ics.length →
      (fit_initial_conditions_arr maxB ics).getD s []
        = pad_row maxB (ics.getD s []) := by
    intro s hs
    exact map_getD_lt (pad_row maxB) ics [] [] s hs
  have hct_in : ∀ i, i < sts.length →
      (fit_continuous_state_transition_arr maxB sts).getD i []
        = (sts.getD i []).map (pad_kernel maxB) := by
    intro i hi
    exact map_getD_lt (fun row => row.map (pad_kernel maxB)) sts [] [] i hi
  refine ⟨⟨by simp [fit_initial_conditions_arr], ?_⟩, ?_, ?_,
    ⟨by simp [fit_continuous_state_transition_arr], ?_⟩, ?_, ?_⟩
  · intro row hrow
    obtain ⟨l, hl, hr⟩ := List.mem_map.mp hrow
    rw [← hr]
    exact pad_row_length maxB l (hic l hl)
  · intro s b hb
    by_cases hs : s < ics.length
    · rw [entry2, hfit_in s hs]
      exact pad_row_getD_ge maxB _ b hb
    · have hlen : (fit_initial_conditions_arr maxB ics).length ≤ s := by
        simp only [fit_initial_conditions_arr, List.length_map]
        omega
      rw [entry2, List.getD_eq_default _ _ hlen]
      simp
  · intro s b hb
    have hs : s < ics.length := by
      by_contra hs
      rw [List.getD_eq_default _ _ (by omega)] at hb
      simp at hb
    rw [entry2, hfit_in s hs]
    exact pad_row_getD_lt maxB _ b hb
  · intro row hrow k hk
    obtain ⟨r, hr, hrw⟩ := List.mem_map.mp hrow
    rw [← hrw] at hk
    obtain ⟨k0, hk0, hkw⟩ := List.mem_map.mp hk
    obtain ⟨hlen, hrows⟩ := hst r hr k0 hk0
    rw [← hkw]
    exact ⟨pad_kernel_length maxB k0 hlen, pad_kernel_rows maxB k0 hrows⟩
  · intro i j b b2 hyp
    by_cases hi : i < sts.length
    · by_cases hj : j < (sts.getD i []).length
      · rw [entry4, hct_in i hi,
          map_getD_lt (pad_kernel maxB) _ [] [] j hj]
        by_cases hbk : ((sts.getD i []).getD j []).length ≤ b
        · have hmap : (List.map (pad_row maxB)
              ((sts.getD i []).getD j [])).length ≤ b := by
            simpa using hbk
          rw [pad_kernel, List.getD_append_right _ _ [] b hmap,
            replicate_zero_rows_getD]
        · have hblt : b < ((sts.getD i []).getD j []).length :=
            Nat.lt_of_not_le hbk
          have hb2 : (((sts.getD i []).getD j []).getD b []).length
              ≤ b2 := by
            rcases hyp with h | h
            · omega
            · exact h
          have hmap : b < (List.map (pad_row maxB)
              ((sts.getD i []).getD j [])).length := by
            simpa using hblt
          rw [pad_kernel, List.getD_append _ _ [] b hmap,
            map_getD_lt (pad_row maxB) _ [] [] b hblt]
          exact pad_row_getD_ge maxB _ b2 hb2
      · have hlen : (List.map (pad_kernel maxB) (sts.getD i [])).length
            ≤ j := by
          simp only [List.length_map]
          omega
        rw [entry4, hct_in i hi, List.getD_eq_default _ _ hlen]
        simp
    · have hlen : (fit_continuous_state_transition_arr maxB sts).length
          ≤ i := by
        simp only [fit_continuous_state_transition_arr, List.length_map]
        omega
      rw [entry4, List.getD_eq_default _ _ hlen]
      simp
  · intro i j b b2 hb hb2
    have hi : i < sts.length := by
      by_contra hi
      have hrow : sts.getD i ([] : List (List (List ℚ))) = [] :=
        List.getD_eq_default _ _ (by omega)
      rw [hrow] at hb
      simp at hb
    have hj : j < (sts.getD i []).length := by
      by_contra hj
      have hrow : (sts.getD i []).getD j ([] : List (List ℚ)) = [] :=
        List.getD_eq_default _ _ (by omega)
      rw [hrow] at hb
      simp at hb
    have hmap : b < (List.map (pad_row maxB)
        ((sts.getD i []).getD j [])).length := by
      simpa using hb
    simp only [entry4]
    rw [hct_in i hi, map_getD_lt (pad_kernel maxB) _ [] [] j hj,
      pad_kernel, List.getD_append _ _ [] b hmap,
      map_getD_lt (pad_row maxB) _ [] [] b hb]
    exact pad_row_getD_lt maxB _ b2 hb2

theorem fitted_padding_invariant_witness :
    (∀ l ∈ ([[(1 : ℚ), 2], [5]] : List (List ℚ)), l.length ≤ 3)
    ∧ entry2 (fit_initial_conditions_arr 3 [[(1 : ℚ), 2], [5]]) 0 2 = 0
    ∧ entry4 (fit_continuous_state_transition_arr 3 [[[[(7 : ℚ)]]]])
        0 0 0 0
      = entry4 [[[[(7 : ℚ)]]]] 0 0 0 0 := by
  have h := fitted_padding_invariant 3 [[(1 : ℚ), 2], [5]] [[[[(7 : ℚ)]]]]
    (by decide) (by decide)
  exact ⟨by decide, h.2.1 0 2 (by decide),
    h.2.2.2.2.2 0 0 0 0 (by decide) (by decide)⟩

/-- Claim C10: at construction, a single `Environment` instance passed
instead of a list is wrapped into a one-element tuple, and when
`observation_models` is `None` the classifier creates exactly one
`ObservationModel` per discrete state (`n_states` = length of
`continuous_transition_types`), each referencing the first environment's
name with the default encoding group; a provided list of environments or
observation models is stored as-is. -/
theorem classifier_init_defaults {CT DT IT : Type} (e : Environment)
    (envs : List Environment) (obs : List ObservationModel)
    (ctt : List (List CT)) (dtt : DT) (ict : IT) (iti : Bool) :
    (∀ om : Option (List ObservationModel),
      (classifier_init (Sum.inl e) om ctt dtt ict iti).environments = [e])
    ∧ (classifier_init (Sum.inl e) none ctt dtt ict iti).observation_models
      = List.replicate ctt.length
          ⟨e.environment_name, default_encoding_group⟩
    ∧ (classifier_init (Sum.inr (e :: envs)) none ctt dtt ict
          iti).observation_models
      = List.replicate ctt.length
          ⟨e.environment_name, default_encoding_group⟩
    ∧ (classifier_init (Sum.inr envs) (some obs) ctt dtt ict
          iti).observation_models = obs
    ∧ (classifier_init (Sum.inr envs) (some obs) ctt dtt ict
          iti).environments = envs := by
  refine ⟨?_, rfl, rfl, rfl, rfl⟩
  intro om
  cases om <;> rfl
